import Mathlib

/-!
Verification of the fiddlemachine ABC-parsing core: a shallow embedding of
`src/backend/section.py` (section boundary detection) and
`src/backend/abc_parser.py` (note-to-section assignment and playback
expansion), with theorems settling the frozen claims about the
natural-language specification.

Modelling conventions:
* Python floats are modelled by `ℚ` (all beat arithmetic in the code is
  addition/subtraction/min/max/comparison on values that are exact dyadic
  rationals in practice, so float rounding never distinguishes the two on
  the inputs considered here).
* Python ints are modelled by `Int` (measure numbers can go negative in
  intermediate candidate computations).
* Python strings are modelled by `String` / `List Char`; the line
  splitting, stripping and regex scans of the source are implemented
  directly as recursive functions on `List Char` mirroring the regexes
  used (`^[A-Z]:`, `\[P:([AB])\]`, the barline-token alternation, `\|`).
  Python's `str.strip` strips a slightly larger whitespace set than
  `' '\t\n\r'`; the extra control characters (vertical tab, form feed)
  are included below for faithfulness.
-/

/-- A note event produced by the notation engine adapter
(`_extract_notes` output dict in `abc_parser.py`): pitch, duration in
beats, absolute start offset in beats, and a measure index. -/
structure NoteEvent where
  pitch : String
  duration : ℚ
  start_time : ℚ
  measure : Int
  deriving DecidableEq, Repr

/-- A final note (`tune.py`, `class Note`): pitch, duration, start time
relative to the owning section. -/
structure PNote where
  pitch : String
  duration : ℚ
  start_time : ℚ
  deriving DecidableEq, Repr

/-- A section boundary dict as produced by `detect_sections` in
`section.py`.  The Python dict may omit the `next_has_pickup` key; every
read of that key in the source uses `.get('next_has_pickup', False)`, so
an absent key is observationally identical to `false` and is modelled as
such. -/
structure SectionBoundary where
  name : String
  start_measure : Int
  end_measure : Int
  repeat_count : Int
  next_has_pickup : Bool
  deriving DecidableEq, Repr

/-- A final section (`tune.py`, `class Section`).  `playback_notes`
defaults to `None` in the source and is modelled by `Option`. -/
structure PSection where
  name : String
  start_measure : Int
  end_measure : Int
  notes : List PNote
  repeat_count : Int
  playback_notes : Option (List PNote)
  deriving DecidableEq, Repr

/-! ### String utilities mirroring the Python text processing -/

/-- The whitespace set stripped by Python's `str.strip()`:
space, tab, newline, carriage return, vertical tab, form feed. -/
def isPySpace (c : Char) : Bool :=
  c = ' ' ∨ c = '\t' ∨ c = '\n' ∨ c = '\r' ∨ c = Char.ofNat 11 ∨ c = Char.ofNat 12

/-- Python `str.strip()` on a character list. -/
def stripChars (l : List Char) : List Char :=
  ((l.dropWhile isPySpace).reverse.dropWhile isPySpace).reverse

/-- Python `str.split('\n')` on a character list. -/
def splitOnNl : List Char → List (List Char)
  | [] => [[]]
  | c :: rest =>
    if c = '\n' then [] :: splitOnNl rest
    else
      match splitOnNl rest with
      | [] => [[c]]
      | l :: ls => (c :: l) :: ls

/-- `re.match(r'^[A-Z]:', line)`: an ASCII upper-case letter followed by
a colon at the start of the (already stripped) line. -/
def isHeaderLine : List Char → Bool
  | c :: ':' :: _ => 'A' ≤ c ∧ c ≤ 'Z'
  | _ => false

/-- Python `' '.join(lines)`. -/
def joinSpace : List (List Char) → List Char
  | [] => []
  | [l] => l
  | l :: ls => l ++ ' ' :: joinSpace ls

/-- The music-line extraction at the top of `detect_sections`: split the
ABC text into lines, strip each, keep the non-empty ones that are not
header lines, and join them with single spaces. -/
def musicOf (abc : List Char) : List Char :=
  joinSpace (((splitOnNl abc).map stripChars).filter
    (fun l => l ≠ [] ∧ isHeaderLine l = false))

/-- The scan `re.finditer(r'\[P:([AB])\]', abc)`: left-to-right,
non-overlapping occurrences of the literal five-character markers
`[P:A]` / `[P:B]`, returning the captured letters.  On a failed match the
regex engine advances one character, which the second equation mirrors. -/
def findPartMatches : List Char → List Char
  | '[' :: 'P' :: ':' :: c :: ']' :: rest =>
    if c = 'A' ∨ c = 'B' then c :: findPartMatches rest
    else findPartMatches ('P' :: ':' :: c :: ']' :: rest)
  | _ :: rest => findPartMatches rest
  | [] => []

/-! ### `_sections_from_part_markers` -/

/-- The loop body of `_sections_from_part_markers`: the first section
starts at measure 1, each later one at the previous `end_measure + 1`;
every section spans a nominal 4 measures (`end = start + 3`) and gets
`repeat = 2`.  The accumulating Python list-append loop becomes a
recursion threading the next start measure. -/
def partMarkersAux (start : Int) : List Char → List SectionBoundary
  | [] => []
  | c :: rest =>
    { name := String.singleton c, start_measure := start,
      end_measure := start + 3, repeat_count := 2, next_has_pickup := false }
      :: partMarkersAux ((start + 3) + 1) rest

/-- `_sections_from_part_markers`, taking the captured letters of the
part-marker matches. -/
def sections_from_part_markers (letters : List Char) : List SectionBoundary :=
  partMarkersAux 1 letters

/-! ### `_sections_from_repeats` -/

/-- The tokenizer
`re.split(r'(\:\|\|?\:|\|\:|\:\||\|\||\|)', music)`.  `re.split` with a
capturing group returns the texts between matches interleaved with the
matched delimiters (texts may be empty).  At each position the regex
alternation is first-match: at `:` it tries `:||:`, then `:|:`, then
`:|`; at `|` it tries `|:`, then `||`, then `|`. -/
def tokenizeAux (acc : List Char) : List Char → List String
  | ':' :: '|' :: '|' :: ':' :: r => String.mk acc.reverse :: ":||:" :: tokenizeAux [] r
  | ':' :: '|' :: ':' :: r => String.mk acc.reverse :: ":|:" :: tokenizeAux [] r
  | ':' :: '|' :: r => String.mk acc.reverse :: ":|" :: tokenizeAux [] r
  | '|' :: ':' :: r => String.mk acc.reverse :: "|:" :: tokenizeAux [] r
  | '|' :: '|' :: r => String.mk acc.reverse :: "||" :: tokenizeAux [] r
  | '|' :: r => String.mk acc.reverse :: "|" :: tokenizeAux [] r
  | c :: r => tokenizeAux (c :: acc) r
  | [] => [String.mk acc.reverse]

/-- Tokenize the music text on barline-family tokens. -/
def tokenizeMusic (music : List Char) : List String :=
  tokenizeAux [] music

/-- Python `str.strip()` on a `String` token. -/
def pyStrip (s : String) : String :=
  String.mk (stripChars s.data)

/-- The look-ahead inside `_sections_from_repeats` run after a `:||:` or
`:|:` token: scan the following raw tokens, skipping empty-after-strip
ones; stop with `false` at the first barline-family token, and with
`true` at the first musical content. -/
def lookAheadPickup : List String → Bool
  | [] => false
  | tok :: rest =>
    let t := pyStrip tok
    if t = "" then lookAheadPickup rest
    else if t = "|" ∨ t = "||" ∨ t = "|:" ∨ t = ":|" ∨ t = ":||:" ∨ t = ":|:" then
      false
    else true

/-- Section naming in `_sections_from_repeats`:
1st → "A", 2nd → "B", k-th (k ≥ 3) → "C(k-2)". -/
def repeatSectionName (count : Nat) : String :=
  if count = 1 then "A" else if count = 2 then "B"
  else "C" ++ toString (count - 2)

/-- The token walk of `_sections_from_repeats`: state is the running
measure counter, the pending section start measure, the number of
sections closed so far, and the `just_ended_section` flag.  On `|:` the
start pointer is reset to the current measure unless a section was just
closed; on an end-repeat token (`:|`, `:||:`, `:|:`) a section
`[section_start, current_measure]` with `repeat = 2` is emitted, with the
pickup look-ahead run only for `:||:`/`:|:`; on `|`/`||` the measure
counter increments; other (content) tokens are ignored. -/
def repeatsWalk (cur start : Int) (cnt : Nat) (justEnded : Bool) :
    List String → List SectionBoundary
  | [] => []
  | tok :: rest =>
    let t := pyStrip tok
    if t = "" then repeatsWalk cur start cnt justEnded rest
    else if t = "|:" then
      repeatsWalk cur (if justEnded then start else cur) cnt false rest
    else if t = ":|" ∨ t = ":||:" ∨ t = ":|:" then
      let pickup := if t = ":||:" ∨ t = ":|:" then lookAheadPickup rest else false
      { name := repeatSectionName (cnt + 1), start_measure := start,
        end_measure := cur, repeat_count := 2, next_has_pickup := pickup }
        :: repeatsWalk (cur + 1) (cur + 1) (cnt + 1) true rest
    else if t = "|" ∨ t = "||" then
      repeatsWalk (cur + 1) start cnt justEnded rest
    else repeatsWalk cur start cnt justEnded rest

/-- `_sections_from_repeats`: walk the token stream starting at measure 1
(the trailing `if sections: return sections / return []` of the source is
the identity on the collected list). -/
def sections_from_repeats (music : List Char) : List SectionBoundary :=
  repeatsWalk 1 1 0 false (tokenizeMusic music)

/-! ### `_sections_from_half_split` -/

/-- `_sections_from_half_split`: count the `|` characters
(`re.findall(r'\|', music)`), force a minimum total of 8 measures, and
split into halves "A" (1..mid) and "B" (mid+1..total) with `repeat = 1`. -/
def sections_from_half_split (music : List Char) : List SectionBoundary :=
  let total : Nat := max (music.countP (fun c => c = '|')) 8
  let mid : Nat := total / 2
  [ { name := "A", start_measure := 1, end_measure := (mid : Int),
      repeat_count := 1, next_has_pickup := false },
    { name := "B", start_measure := (mid : Int) + 1, end_measure := (total : Int),
      repeat_count := 1, next_has_pickup := false } ]

/-! ### `detect_sections` -/

/-- `detect_sections` (`section.py`): explicit `[P:A]`/`[P:B]` part
markers (≥ 2 occurrences scanned over the raw ABC text) take priority;
otherwise the repeat-marker walk over the music-only text; otherwise the
half-split fallback. -/
def detect_sections (abc : String) : List SectionBoundary :=
  let music := musicOf abc.data
  let partMatches := findPartMatches abc.data
  if 2 ≤ partMatches.length then
    sections_from_part_markers partMatches
  else
    let sections := sections_from_repeats music
    if sections = [] then sections_from_half_split music
    else sections

/-! ### `_get_beats_per_measure` (`abc_parser.py`) -/

/-- Digit-string to `Nat` (the core of Python `int()` on a decimal
literal). `none` on an empty or non-digit string. -/
def digitsToNat : List Char → Option Nat
  | [] => none
  | ds =>
    if ds.all Char.isDigit then
      some (ds.foldl (fun acc c => 10 * acc + (c.toNat - 48)) 0)
    else none

/-- Python `int(s)` on a stripped decimal string with an optional sign
(`ValueError` becomes `none`; exotic forms such as underscores in
literals are outside the modelled domain). -/
def parseIntStr (s : List Char) : Option Int :=
  match stripChars s with
  | '-' :: ds => (digitsToNat ds).map (fun n => -(n : Int))
  | '+' :: ds => (digitsToNat ds).map (fun n => (n : Int))
  | ds => (digitsToNat ds).map (fun n => (n : Int))

/-- Python `str.split('/')`. -/
def splitOnSlash : List Char → List (List Char)
  | [] => [[]]
  | c :: rest =>
    if c = '/' then [] :: splitOnSlash rest
    else
      match splitOnSlash rest with
      | [] => [[c]]
      | l :: ls => (c :: l) :: ls

/-- `_get_beats_per_measure`: parse "N/D" and return `N * (4 / D)` in
quarter notes; on a `ValueError`/`IndexError` fall back to 4.0.  (A
denominator of 0 raises an uncaught `ZeroDivisionError` in the source;
in `ℚ` division by zero yields 0, so that out-of-domain corner is not
relied on by any theorem below.) -/
def get_beats_per_measure (time_sig : String) : ℚ :=
  match splitOnSlash time_sig.data with
  | p0 :: p1 :: _ =>
    match parseIntStr p0, parseIntStr p1 with
    | some n, some d => (n : ℚ) * (4 / (d : ℚ))
    | _, _ => 4
  | _ => 4

/-! ### `_assign_notes_to_sections` (`abc_parser.py`) -/

/-- `sorted(all_notes, key=lambda n: n['start_time'])` — Python's sort
is stable, and a stable sort by a total preorder on the key is a unique
function of its input, so any stable implementation is extensionally the
same; `List.insertionSort` with the non-strict key comparison inserts
each element before the first later-listed element of equal or larger
key and is therefore stable. -/
def sortNotes (all_notes : List NoteEvent) : List NoteEvent :=
  all_notes.insertionSort (fun a b => a.start_time ≤ b.start_time)

/-- One step of building the `measure_start_beats` dict: record the
note's start time at its measure if the measure is not yet present or
the note starts earlier. -/
def msbStep (d : Int → Option ℚ) (n : NoteEvent) : Int → Option ℚ :=
  fun m =>
    if m = n.measure then
      match d n.measure with
      | none => some n.start_time
      | some v => if n.start_time < v then some n.start_time else some v
    else d m

/-- The `measure_start_beats` dict (map from measure number to the
earliest note start time observed at that measure), built by folding
over the sorted notes exactly as the source loop does. -/
def measureStartBeats (sorted_notes : List NoteEvent) : Int → Option ℚ :=
  sorted_notes.foldl msbStep (fun _ => none)

/-- `total_beats = max(n['start_time'] + n['duration'] for n in sorted_notes)`
(the source only evaluates this when the list is non-empty; the `[]`
case is given a junk value of 0 that no caller reaches). -/
def totalBeats : List NoteEvent → ℚ
  | [] => 0
  | n :: rest => rest.foldl (fun a m => max a (m.start_time + m.duration)) (n.start_time + n.duration)

/-- The pickup-tune detection inside the beat-range loop: if both
measure 0 and measure 1 appear in `measure_start_beats` and the beat
span of measure 0 is smaller than a full measure, the tune starts with a
pickup bar. -/
def hasPickupTune (msb : Int → Option ℚ) (time_sig : String) : Bool :=
  match msb 0, msb 1 with
  | some b0, some b1 => b1 - b0 < get_beats_per_measure time_sig
  | _, _ => false

/-- `check_order` probing: return the first candidate measure present in
`measure_start_beats`. -/
def firstFoundBeat (msb : Int → Option ℚ) : List Int → Option ℚ
  | [] => none
  | m :: rest =>
    match msb m with
    | some b => some b
    | none => firstFoundBeat msb rest

/-- The `end_beat` computation for a non-final section `i` with
successor `next`: compute the music21 measure-numbering offset from the
tune-level pickup detection, pick the candidate measure from the next
section's start measure, probe `[candidate, candidate-1, candidate+1]`
in `measure_start_beats`, and fall back to the even split
`total_beats * (i+1) / num_sections`.  (The source's `next_has_pickup`
branch computes the same candidate list as its else-branch; both are
kept to mirror the code.) -/
def endBeatFor (msb : Int → Option ℚ) (time_sig : String) (total : ℚ)
    (num_sections : Nat) (i : Nat) (cur next : SectionBoundary) : ℚ :=
  let has_pickup := hasPickupTune msb time_sig
  let m21_offset : Int := if has_pickup then 0 else -1
  let check_order : List Int :=
    if cur.next_has_pickup then
      let pickup_m21_measure := next.start_measure + m21_offset
      [pickup_m21_measure, pickup_m21_measure - 1, pickup_m21_measure + 1]
    else
      let target_measure := next.start_measure + m21_offset
      [target_measure, target_measure - 1, target_measure + 1]
  match firstFoundBeat msb check_order with
  | some b => b
  | none => total * ((i : ℚ) + 1) / (num_sections : ℚ)

/-- The `section_beat_ranges` loop: section 0 starts at beat 0, each
later section starts where the previous one ended, and the last section
ends at `total_beats`. -/
def beatRangesAux (msb : Int → Option ℚ) (time_sig : String) (total : ℚ)
    (num_sections : Nat) : ℚ → Nat → List SectionBoundary → List (ℚ × ℚ)
  | _, _, [] => []
  | prev, _, [_] => [(prev, total)]
  | prev, i, cur :: next :: rest =>
    let e := endBeatFor msb time_sig total num_sections i cur next
    (prev, e) :: beatRangesAux msb time_sig total num_sections e (i + 1) (next :: rest)

/-- The computed `section_beat_ranges` for a sorted, non-empty note list
and a section-boundary list. -/
def sectionRangesOf (sorted_notes : List NoteEvent) (section_info : List SectionBoundary)
    (time_sig : String) : List (ℚ × ℚ) :=
  beatRangesAux (measureStartBeats sorted_notes) time_sig (totalBeats sorted_notes)
    section_info.length 0 0 section_info

/-- Minimum start time of a non-empty note-event list
(`min(n['start_time'] for n in notes_in_section)`; junk 0 on `[]`,
which no caller reaches). -/
def minStartE : List NoteEvent → ℚ
  | [] => 0
  | n :: rest => rest.foldl (fun a m => min a m.start_time) n.start_time

/-- Build one output section from its boundary info and beat range:
filter the sorted notes into the half-open range
`[start_beat, end_beat)`, then normalize start times by the section's
minimum. -/
def buildSection (sorted_notes : List NoteEvent) (info : SectionBoundary)
    (range : ℚ × ℚ) : PSection :=
  let notes_in_section := sorted_notes.filter
    (fun n => range.1 ≤ n.start_time ∧ n.start_time < range.2)
  let section_notes :=
    if notes_in_section = [] then []
    else
      let section_start_time := minStartE notes_in_section
      notes_in_section.map (fun n =>
        { pitch := n.pitch, duration := n.duration,
          start_time := n.start_time - section_start_time })
  { name := info.name, start_measure := info.start_measure,
    end_measure := info.end_measure, notes := section_notes,
    repeat_count := info.repeat_count, playback_notes := none }

/-- The body of `_assign_notes_to_sections` after the empty-boundaries
guard: sort the notes; with no notes emit one empty section per
boundary; otherwise compute the per-section beat ranges and build each
section from its range. -/
def assignWithBoundaries (all_notes : List NoteEvent)
    (section_info : List SectionBoundary) (time_sig : String) : List PSection :=
  let sorted_notes := sortNotes all_notes
  if sorted_notes = [] then
    section_info.map (fun info =>
      { name := info.name, start_measure := info.start_measure,
        end_measure := info.end_measure, notes := [],
        repeat_count := info.repeat_count, playback_notes := none })
  else
    let ranges := sectionRangesOf sorted_notes section_info time_sig
    (section_info.zip ranges).map (fun p => buildSection sorted_notes p.1 p.2)

/-- Maximum measure number of a non-empty note-event list
(`max(n['measure'] for n in all_notes)`). -/
def maxMeasure : List NoteEvent → Int
  | [] => 1
  | n :: rest => rest.foldl (fun a m => max a m.measure) n.measure

/-- `_assign_notes_to_sections`: with an empty boundary list, one "Full"
section holding every note with its absolute start time unmodified
(`repeat` left at the model default 1); otherwise the boundary-driven
assignment. -/
def assign_notes_to_sections (all_notes : List NoteEvent)
    (section_info : List SectionBoundary) (time_sig : String) : List PSection :=
  if section_info = [] then
    [ { name := "Full", start_measure := 1,
        end_measure := if all_notes = [] then 1 else maxMeasure all_notes,
        notes := all_notes.map (fun n =>
          { pitch := n.pitch, duration := n.duration, start_time := n.start_time }),
        repeat_count := 1, playback_notes := none } ]
  else assignWithBoundaries all_notes section_info time_sig

/-! ### `_expand_playback_notes` (`abc_parser.py`) -/

/-- `section_duration = max(n.start_time + n.duration for n in section.notes)`
(junk 0 on `[]`, unreached by callers). -/
def sectionDuration : List PNote → ℚ
  | [] => 0
  | n :: rest => rest.foldl (fun a m => max a (m.start_time + m.duration)) (n.start_time + n.duration)

/-- The `first_full_beat` computation on a repeat pass with a pickup:
the minimum start time among notes with `start_time >= 1.0`, or 0 when
no such note exists. -/
def firstFullBeat (notes : List PNote) : ℚ :=
  match (notes.filter (fun n => (1 : ℚ) ≤ n.start_time)).map (fun n => n.start_time) with
  | [] => 0
  | x :: xs => xs.foldl min x

/-- One repeat pass of `_expand_playback_notes`: given the pass index
`rep` and the running offset, compute `skip_beats`, emit every note with
`start_time >= skip_beats` shifted by `current_offset + start_time -
skip_beats`, and return the advanced offset
(`+ section_duration` on the first pass, `+ section_duration -
skip_beats` afterwards). -/
def passNotes (notes : List PNote) (duration : ℚ) (has_pickup : Bool)
    (rep : Nat) (off : ℚ) : List PNote × ℚ :=
  let skip_beats : ℚ := if 0 < rep ∧ has_pickup then firstFullBeat notes else 0
  let emitted := (notes.filter (fun n => ¬ n.start_time < skip_beats)).map
    (fun n => { pitch := n.pitch, duration := n.duration,
                start_time := off + n.start_time - skip_beats })
  (emitted, if rep = 0 then off + duration else off + duration - skip_beats)

/-- The `for rep in range(section.repeat)` loop, as a recursion on the
number of remaining passes with the current pass index and offset. -/
def expandLoop (notes : List PNote) (duration : ℚ) (has_pickup : Bool) :
    Nat → Nat → ℚ → List PNote
  | 0, _, _ => []
  | remaining + 1, rep, off =>
    let p := passNotes notes duration has_pickup rep off
    p.1 ++ expandLoop notes duration has_pickup remaining (rep + 1) p.2

/-- The per-section body of `_expand_playback_notes`: with `repeat <= 1`
or no notes, `playback_notes` is a copy of `notes`; otherwise detect a
pickup (some note starts before beat 1 *and* the first listed note does
not start at 0) and unroll the repeat passes. -/
def expandSection (sec : PSection) : PSection :=
  match sec.notes with
  | [] =>
    { name := sec.name, start_measure := sec.start_measure,
      end_measure := sec.end_measure, notes := sec.notes,
      repeat_count := sec.repeat_count, playback_notes := some sec.notes }
  | n0 :: _ =>
    if sec.repeat_count ≤ 1 then
      { name := sec.name, start_measure := sec.start_measure,
        end_measure := sec.end_measure, notes := sec.notes,
        repeat_count := sec.repeat_count, playback_notes := some sec.notes }
    else
      let section_duration := sectionDuration sec.notes
      let pickup_notes := sec.notes.filter (fun n => n.start_time < 1)
      let has_pickup := 0 < pickup_notes.length ∧ 0 < n0.start_time
      let playback := expandLoop sec.notes section_duration has_pickup
        (sec.repeat_count.toNat) 0 0
      { name := sec.name, start_measure := sec.start_measure,
        end_measure := sec.end_measure, notes := sec.notes,
        repeat_count := sec.repeat_count, playback_notes := some playback }

/-- `_expand_playback_notes` maps the per-section expansion over the
section list (the loop body is independent per section). -/
def expand_playback_notes (sections : List PSection) : List PSection :=
  sections.map expandSection

/-! ### Observation predicates used by the theorems -/

/-- Minimum `start_time` of a (non-empty) list of final notes; junk 0 on
`[]`. -/
def minStartP : List PNote → ℚ
  | [] => 0
  | n :: rest => rest.foldl (fun a m => min a m.start_time) n.start_time

/-- The spec's contiguity invariant on a boundary list: the first
boundary starts at measure `k`, and every subsequent boundary starts at
the previous boundary's `end_measure + 1`. -/
def contiguousFrom : Int → List SectionBoundary → Bool
  | _, [] => true
  | k, b :: rest => b.start_measure == k && contiguousFrom (b.end_measure + 1) rest

/-- A weaker ordering invariant: every boundary starts at or after the
running lower bound, spans at least one measure
(`start_measure ≤ end_measure`), and the next lower bound is this
boundary's `end_measure + 1` (so adjacent boundaries never overlap, but
gaps are allowed). -/
def boundedOrdered : Int → List SectionBoundary → Bool
  | _, [] => true
  | lo, b :: rest =>
    lo ≤ b.start_measure && b.start_measure ≤ b.end_measure &&
      boundedOrdered (b.end_measure + 1) rest

/-- Modelled from the spec: claim C4 reads the inline part-change marker
as `[P:X]` "where X is any letter", while the source regex
`\[P:([AB])\]` accepts only `A` and `B`.  This definition follows the
claim's words (any ASCII letter) for comparison against
`findPartMatches`. -/
def findPartMatchesSpec : List Char → List Char
  | '[' :: 'P' :: ':' :: c :: ']' :: rest =>
    if ('A' ≤ c ∧ c ≤ 'Z') ∨ ('a' ≤ c ∧ c ≤ 'z') then c :: findPartMatchesSpec rest
    else findPartMatchesSpec ('P' :: ':' :: c :: ']' :: rest)
  | _ :: rest => findPartMatchesSpec rest
  | [] => []

/-- The chained-range relation on a computed beat-range list: starting
beat `s`, each range begins where the previous ended, and the final
range ends at `T` (for the empty list, `s = T`). -/
def rangeChainP (s T : ℚ) : List (ℚ × ℚ) → Prop
  | [] => s = T
  | r :: rest => r.1 = s ∧ rangeChainP r.2 T rest

/-! ## Theorems settling the claims -/

/-- C8: For the input `"|:ABCD:|:EFGH:|"` (music-only, no headers),
`detect_sections` returns exactly two boundaries named "A" and "B" in
that order, both with repeat=2, produced by the repeat-marker strategy
(the second conjunct shows the repeat-marker walk itself yields this
list, hence the fallback is not consulted; the fallback would have
produced repeat=1 boundaries). -/
theorem detect_sections_double_repeat_input :
    detect_sections "|:ABCD:|:EFGH:|" =
      [ { name := "A", start_measure := 1, end_measure := 1,
          repeat_count := 2, next_has_pickup := true },
        { name := "B", start_measure := 2, end_measure := 2,
          repeat_count := 2, next_has_pickup := false } ] ∧
    sections_from_repeats (musicOf "|:ABCD:|:EFGH:|".data) =
      [ { name := "A", start_measure := 1, end_measure := 1,
          repeat_count := 2, next_has_pickup := true },
        { name := "B", start_measure := 2, end_measure := 2,
          repeat_count := 2, next_has_pickup := false } ] := by
  constructor <;> decide

/-- C9: For every section with repeat ≤ 1 or an empty notes list, the
playback expander returns `playback_notes` equal to `notes` and leaves
every other field unchanged.  (The expander is a `def` of its input
section alone, so determinism / absence of hidden state is inherent to
the embedding: `expandSection sec` is one fixed value.) -/
theorem expandSection_identity_when_no_repeat (sec : PSection)
    (h : sec.repeat_count ≤ 1 ∨ sec.notes = []) :
    expandSection sec =
      { name := sec.name, start_measure := sec.start_measure,
        end_measure := sec.end_measure, notes := sec.notes,
        repeat_count := sec.repeat_count, playback_notes := some sec.notes } := by
  obtain ⟨nm, sm, em, notes, rc, pb⟩ := sec
  cases notes with
  | nil => simp [expandSection]
  | cons n0 rest =>
    rcases h with h | h
    · simp only at h
      simp [expandSection, h]
    · simp only at h
      exact absurd h (by simp)

/-- Witness for C9 (spec scenario 4): a repeat=1 section with one note
expands to playback_notes equal to notes. -/
theorem expandSection_identity_witness :
    expandSection
      { name := "A", start_measure := 1, end_measure := 4,
        notes := [{ pitch := "D4", duration := 1, start_time := 0 }],
        repeat_count := 1, playback_notes := none } =
      { name := "A", start_measure := 1, end_measure := 4,
        notes := [{ pitch := "D4", duration := 1, start_time := 0 }],
        repeat_count := 1,
        playback_notes := some [{ pitch := "D4", duration := 1, start_time := 0 }] } :=
  expandSection_identity_when_no_repeat _ (Or.inl (by decide))

/-- C2: a section with repeat=2 whose two notes per pass are a pickup at
start_time 1/2 and a note on or after beat 1 (so the skip threshold —
the minimum start_time among notes with start_time ≥ 1 — exists and
equals the second note's start).  The unrolled playback emits the first
pass unchanged, omits the pickup on the second pass, and shifts the
remaining second-pass note by (first pass's full duration − skip
threshold): its playback start is the original start plus
`sectionDuration − s2`. -/
theorem expandSection_pickup_second_pass (nm : String) (sm em : Int)
    (p1 p2 : String) (d1 d2 s2 : ℚ) (h : 1 ≤ s2) :
    expandSection
      { name := nm, start_measure := sm, end_measure := em,
        notes := [⟨p1, d1, 1/2⟩, ⟨p2, d2, s2⟩],
        repeat_count := 2, playback_notes := none } =
      { name := nm, start_measure := sm, end_measure := em,
        notes := [⟨p1, d1, 1/2⟩, ⟨p2, d2, s2⟩],
        repeat_count := 2,
        playback_notes := some
          [⟨p1, d1, 1/2⟩, ⟨p2, d2, s2⟩,
           ⟨p2, d2, (max (1/2 + d1) (s2 + d2) - s2) + s2⟩] } := by
  have h0 : ¬ s2 < 1 := not_lt.mpr h
  have h2 : ¬ (s2 < 0) := by intro hh; linarith
  have h2' : (0:ℚ) ≤ s2 := by linarith
  have h3 : (1:ℚ)/2 < s2 := by linarith
  have h5 : ¬ (s2 < s2) := lt_irrefl s2
  have hs2 : (1:ℚ) ≤ s2 := h
  norm_num [expandSection, sectionDuration, expandLoop, passNotes, firstFullBeat,
    h0, h2, h2', h3, h5, hs2]

/-- Witness for C2 (spec scenario 5): pickup at 1/2 with duration 1/2,
second note at beat 1 with duration 1; the first pass's full duration is
2, the skip threshold is 1, and the second pass's single note starts at
(2 − 1) + 1 = 2. -/
theorem expandSection_pickup_witness :
    expandSection
      { name := "A", start_measure := 1, end_measure := 4,
        notes := [⟨"D4", 1/2, 1/2⟩, ⟨"E4", 1, 1⟩],
        repeat_count := 2, playback_notes := none } =
      { name := "A", start_measure := 1, end_measure := 4,
        notes := [⟨"D4", 1/2, 1/2⟩, ⟨"E4", 1, 1⟩],
        repeat_count := 2,
        playback_notes := some
          [⟨"D4", 1/2, 1/2⟩, ⟨"E4", 1, 1⟩, ⟨"E4", 1, 2⟩] } := by
  have e := expandSection_pickup_second_pass "A" 1 4 "D4" "E4" (1/2) 1 1 (by norm_num)
  rw [e]
  norm_num

/-- Counterexample to C3: on a *plain* `:|` end token the look-ahead is
never run, so `next_has_pickup` is false even when musical content
("CD") appears between the closing marker and the next barline.  For
input "AB:|CD|EF:|" the token following the first `:|` is content (the
look-ahead over the remaining tokens would report true), yet the closed
boundary "A" carries next_has_pickup = false — the source only runs the
look-ahead for `:||:` and `:|:` tokens. -/
theorem repeats_pickup_claim_counterexample :
    tokenizeMusic (musicOf "AB:|CD|EF:|".data) = ["AB", ":|", "CD", "|", "EF", ":|", ""] ∧
    lookAheadPickup ["CD", "|", "EF", ":|", ""] = true ∧
    (detect_sections "AB:|CD|EF:|").map SectionBoundary.next_has_pickup = [false, false] := by
  refine ⟨by decide, by decide, by decide⟩

/-- C3 amended: in the repeat-marker walk, a boundary closed by a plain
`:|` token always gets next_has_pickup = false; only a boundary closed
by `:||:` or `:|:` gets next_has_pickup set from the
content-before-next-barline look-ahead over the following tokens. -/
theorem repeats_pickup_amended (cur start : Int) (cnt : Nat) (je : Bool)
    (tok : String) (rest : List String) :
    (pyStrip tok = ":|" →
      (repeatsWalk cur start cnt je (tok :: rest)).head?.map SectionBoundary.next_has_pickup
        = some false) ∧
    ((pyStrip tok = ":||:" ∨ pyStrip tok = ":|:") →
      (repeatsWalk cur start cnt je (tok :: rest)).head?.map SectionBoundary.next_has_pickup
        = some (lookAheadPickup rest)) := by
  constructor
  · intro h
    simp [repeatsWalk, h]
  · rintro (h | h) <;> simp [repeatsWalk, h]

/-- Witness for C3 amended: a plain `:|` followed by content yields
next_has_pickup = false on the boundary just closed, while `:|:`
followed by the same content yields true. -/
theorem repeats_pickup_amended_witness :
    (repeatsWalk 1 1 0 false [":|", "CD", "|"]).head?.map SectionBoundary.next_has_pickup
      = some false ∧
    (repeatsWalk 1 1 0 false [":|:", "CD", "|"]).head?.map SectionBoundary.next_has_pickup
      = some true := by
  constructor
  · exact (repeats_pickup_amended 1 1 0 false ":|" ["CD", "|"]).1 (by decide)
  · have e := (repeats_pickup_amended 1 1 0 false ":|:" ["CD", "|"]).2 (Or.inr (by decide))
    rw [e]
    decide

/-- Length of the part-marker section list: one boundary per matched
marker. -/
theorem partMarkersAux_length (ls : List Char) :
    ∀ s : Int, (partMarkersAux s ls).length = ls.length := by
  induction ls with
  | nil => intro s; rfl
  | cons c rest ih => intro s; simp [partMarkersAux, ih]

/-- Shape of the k-th part-marker boundary: named after the k-th
captured letter, spanning the nominal 4 measures
`[s + 4k, s + 4k + 3]`, with repeat = 2. -/
theorem partMarkersAux_get (ls : List Char) :
    ∀ (s : Int) (k : Nat) (hk : k < (partMarkersAux s ls).length),
    (partMarkersAux s ls).get ⟨k, hk⟩ =
      { name := String.singleton (ls.get ⟨k, by rw [← partMarkersAux_length ls s]; exact hk⟩),
        start_measure := s + 4 * k, end_measure := s + 4 * k + 3,
        repeat_count := 2, next_has_pickup := false } := by
  induction ls with
  | nil => intro s k hk; simp [partMarkersAux] at hk
  | cons c rest ih =>
    intro s k hk
    cases k with
    | zero => simp [partMarkersAux]
    | succ k' =>
      have hk' : k' < (partMarkersAux (s + 3 + 1) rest).length := by
        simp [partMarkersAux] at hk
        rw [partMarkersAux_length]
        rw [partMarkersAux_length] at hk
        omega
      have h2 := ih (s + 3 + 1) k' hk'
      simp only [partMarkersAux, List.get_eq_getElem, List.getElem_cons_succ] at h2 ⊢
      rw [h2]
      simp only [SectionBoundary.mk.injEq, and_true, true_and]
      constructor <;> (push_cast; ring)

/-- Counterexample to C4: the input "[P:C]x[P:D]y" contains two inline
part markers with letters per the claim's "any letter" reading, but the
source regex `\[P:([AB])\]` matches neither, so the part-marker strategy
is not used: `detect_sections` falls through to the half-split fallback
and returns boundaries with repeat = 1, contradicting the claimed
one-boundary-per-marker output with repeat = 2. -/
theorem part_marker_any_letter_counterexample :
    2 ≤ (findPartMatchesSpec "[P:C]x[P:D]y".data).length ∧
    (findPartMatches "[P:C]x[P:D]y".data).length = 0 ∧
    (detect_sections "[P:C]x[P:D]y").map SectionBoundary.repeat_count = [1, 1] := by
  refine ⟨by decide, by decide, by decide⟩

/-- C4 amended: for every ABC text with at least two occurrences of the
source's part-marker pattern (`[P:X]` with X restricted to the letters A
and B), `detect_sections` uses the part-marker strategy, returning one
boundary per marker occurrence, the k-th named after the k-th captured
letter and spanning the fixed nominal 4 measures `[1 + 4k, 4(k+1)]`
(so the first starts at measure 1 and each end_measure = start + 3),
all with repeat = 2. -/
theorem detect_sections_part_markers_amended (abc : String)
    (h : 2 ≤ (findPartMatches abc.data).length) :
    detect_sections abc = sections_from_part_markers (findPartMatches abc.data) ∧
    (detect_sections abc).length = (findPartMatches abc.data).length ∧
    ∀ (k : Nat) (hk : k < (sections_from_part_markers (findPartMatches abc.data)).length),
      ((sections_from_part_markers (findPartMatches abc.data)).get ⟨k, hk⟩).start_measure
          = 1 + 4 * k ∧
      ((sections_from_part_markers (findPartMatches abc.data)).get ⟨k, hk⟩).end_measure
          = 1 + 4 * k + 3 ∧
      ((sections_from_part_markers (findPartMatches abc.data)).get ⟨k, hk⟩).repeat_count = 2 := by
  have hd : detect_sections abc = sections_from_part_markers (findPartMatches abc.data) := by
    unfold detect_sections
    simp [h]
  refine ⟨hd, ?_, ?_⟩
  · rw [hd]
    exact partMarkersAux_length _ 1
  · intro k hk
    simp only [sections_from_part_markers] at hk ⊢
    rw [partMarkersAux_get (findPartMatches abc.data) 1 k hk]
    exact ⟨rfl, rfl, rfl⟩

/-- Witness for C4 amended: two A/B markers give the part-marker
boundaries A (1–4) and B (5–8), both with repeat = 2. -/
theorem detect_sections_part_markers_witness :
    detect_sections "[P:A]x[P:B]y" =
      [ { name := "A", start_measure := 1, end_measure := 4,
          repeat_count := 2, next_has_pickup := false },
        { name := "B", start_measure := 5, end_measure := 8,
          repeat_count := 2, next_has_pickup := false } ] := by
  have e := (detect_sections_part_markers_amended "[P:A]x[P:B]y" (by decide)).1
  rw [e]
  decide

/-- Weakening the lower bound preserves the ordering invariant. -/
theorem boundedOrdered_mono (lo' lo : Int) (l : List SectionBoundary)
    (hle : lo' ≤ lo) (h : boundedOrdered lo l = true) : boundedOrdered lo' l = true := by
  cases l with
  | nil => rfl
  | cons b rest =>
    simp only [boundedOrdered, Bool.and_eq_true, decide_eq_true_eq] at h ⊢
    exact ⟨⟨le_trans hle h.1.1, h.1.2⟩, h.2⟩

/-- Invariant of the repeat-marker token walk: starting with a pending
start measure at most the current measure, every emitted boundary has
`start_measure ≤ end_measure`, boundaries appear in order, and each
starts strictly after the previous boundary's end (no overlap) — but
not necessarily exactly at the previous end + 1, and the first not
necessarily at the walk's initial measure. -/
theorem repeatsWalk_boundedOrdered :
    ∀ (toks : List String) (cur start : Int) (cnt : Nat) (je : Bool),
    start ≤ cur → boundedOrdered start (repeatsWalk cur start cnt je toks) = true := by
  intro toks
  induction toks with
  | nil => intro cur start cnt je h; rfl
  | cons tok rest ih =>
    intro cur start cnt je h
    by_cases h0 : pyStrip tok = ""
    · simpa [repeatsWalk, h0] using ih cur start cnt je h
    · by_cases h1 : pyStrip tok = "|:"
      · have hs : (if je then start else cur) ≤ cur := by
          cases je <;> simp [h]
        have hw := ih cur (if je then start else cur) cnt false hs
        have hle : start ≤ (if je then start else cur) := by
          cases je <;> simp [h]
        simpa [repeatsWalk, h0, h1] using boundedOrdered_mono _ _ _ hle hw
      · by_cases h2 : pyStrip tok = ":|" ∨ pyStrip tok = ":||:" ∨ pyStrip tok = ":|:"
        · have hw := ih (cur + 1) (cur + 1) (cnt + 1) true (le_refl _)
          simp [repeatsWalk, h0, h1, h2, boundedOrdered, h, hw]
        · by_cases h3 : pyStrip tok = "|" ∨ pyStrip tok = "||"
          · have hw := ih (cur + 1) start cnt je (by omega)
            simpa [repeatsWalk, h0, h1, h2, h3] using hw
          · simpa [repeatsWalk, h0, h1, h2, h3] using ih cur start cnt je h

/-- Part-marker boundaries satisfy the ordering invariant from their
initial start measure. -/
theorem partMarkersAux_boundedOrdered (ls : List Char) :
    ∀ s : Int, boundedOrdered s (partMarkersAux s ls) = true := by
  induction ls with
  | nil => intro s; rfl
  | cons c rest ih =>
    intro s
    simp only [partMarkersAux, boundedOrdered, Bool.and_eq_true, decide_eq_true_eq]
    exact ⟨⟨le_refl _, by omega⟩, ih (s + 3 + 1)⟩

/-- Part-marker boundaries are exactly contiguous: each starts at the
previous boundary's end + 1. -/
theorem partMarkersAux_contiguous (ls : List Char) :
    ∀ s : Int, contiguousFrom s (partMarkersAux s ls) = true := by
  induction ls with
  | nil => intro s; rfl
  | cons c rest ih =>
    intro s
    simp only [partMarkersAux, contiguousFrom, Bool.and_eq_true, beq_iff_eq]
    exact ⟨trivial, ih (s + 3 + 1)⟩

/-- Half-split boundaries are exactly contiguous from measure 1. -/
theorem half_split_contiguous (music : List Char) :
    contiguousFrom 1 (sections_from_half_split music) = true := by
  simp [sections_from_half_split, contiguousFrom]

/-- Half-split boundaries satisfy the ordering invariant from measure 1
(non-degenerate thanks to the forced minimum of 8 measures). -/
theorem half_split_boundedOrdered (music : List Char) :
    boundedOrdered 1 (sections_from_half_split music) = true := by
  have h8 : 8 ≤ max (music.countP (fun c => c = '|')) 8 := le_max_right _ _
  simp only [sections_from_half_split, boundedOrdered, Bool.and_eq_true, decide_eq_true_eq]
  refine ⟨⟨le_refl _, ?_⟩, ⟨le_refl _, ?_⟩, trivial⟩ <;> omega

/-- C5 amended: for every input, the boundaries returned by
`detect_sections` are in performance order and non-overlapping (each
boundary spans at least one measure and starts after the previous
boundary's end, all starting at measure 1 or later); the exact
contiguity of the original claim (first boundary at measure 1, each
subsequent start equal to the previous end + 1) holds unconditionally
for the part-marker and half-split strategies, but not for the
repeat-marker strategy (see the counterexample). -/
theorem detect_sections_ordered_amended (abc : String) (letters : List Char) (music : List Char) :
    boundedOrdered 1 (detect_sections abc) = true ∧
    contiguousFrom 1 (sections_from_part_markers letters) = true ∧
    contiguousFrom 1 (sections_from_half_split music) = true := by
  refine ⟨?_, partMarkersAux_contiguous letters 1, half_split_contiguous music⟩
  unfold detect_sections
  by_cases hp : 2 ≤ (findPartMatches abc.data).length
  · simp only [hp, if_true]
    exact partMarkersAux_boundedOrdered _ 1
  · simp only [hp, if_false]
    by_cases hr : sections_from_repeats (musicOf abc.data) = []
    · simp only [hr, if_pos]
      exact half_split_boundedOrdered _
    · simp only [hr, if_neg]
      exact repeatsWalk_boundedOrdered _ 1 1 0 false (le_refl _)

/-- Counterexample to C5 as stated: for "AB|CD|:EF:|" the repeat-marker
strategy's single boundary starts at measure 2, not measure 1 — the
`|:` token is preceded by two barlines, and the walk resets the section
start pointer to the then-current measure. -/
theorem detect_sections_contiguity_counterexample :
    detect_sections "AB|CD|:EF:|" =
      [ { name := "A", start_measure := 2, end_measure := 2,
          repeat_count := 2, next_has_pickup := false } ] ∧
    contiguousFrom 1 (detect_sections "AB|CD|:EF:|") = false := by
  refine ⟨by decide, by decide⟩

/-- `splitOnNl` always returns at least one (possibly empty) line. -/
theorem splitOnNl_ne_nil (s : List Char) : splitOnNl s ≠ [] := by
  cases s with
  | nil => simp [splitOnNl]
  | cons c rest =>
    simp only [splitOnNl]
    by_cases h : c = '\n'
    · simp [h]
    · simp only [h, if_false]
      cases hs : splitOnNl rest <;> simp

/-- Every character of a line of `splitOnNl s` comes from `s`. -/
theorem mem_of_mem_splitOnNl (s : List Char) :
    ∀ l ∈ splitOnNl s, ∀ c ∈ l, c ∈ s := by
  induction s with
  | nil =>
    intro l hl c hc
    simp [splitOnNl] at hl
    subst hl
    simp at hc
  | cons a rest ih =>
    intro l hl c hc
    simp only [splitOnNl] at hl
    by_cases ha : a = '\n'
    · simp only [ha, if_true, List.mem_cons] at hl
      rcases hl with hl | hl
      · subst hl; simp at hc
      · exact List.mem_cons_of_mem _ (ih l hl c hc)
    · simp only [ha, if_false] at hl
      cases hs : splitOnNl rest with
      | nil => exact absurd hs (splitOnNl_ne_nil rest)
      | cons l0 ls =>
        rw [hs] at hl
        simp only [List.mem_cons] at hl
        rcases hl with hl | hl
        · subst hl
          simp only [List.mem_cons] at hc
          rcases hc with hc | hc
          · subst hc; exact List.mem_cons_self _ _
          · have hl0 : l0 ∈ splitOnNl rest := by rw [hs]; exact List.mem_cons_self _ _
            exact List.mem_cons_of_mem _ (ih l0 hl0 c hc)
        · have : l ∈ splitOnNl rest := by rw [hs]; exact List.mem_cons_of_mem _ hl
          exact List.mem_cons_of_mem _ (ih l this c hc)

/-- Stripping only removes characters. -/
theorem mem_of_mem_stripChars (l : List Char) (c : Char) (h : c ∈ stripChars l) : c ∈ l := by
  unfold stripChars at h
  rw [List.mem_reverse] at h
  have h1 := (List.dropWhile_sublist (l := (l.dropWhile isPySpace).reverse) isPySpace).mem h
  rw [List.mem_reverse] at h1
  exact (List.dropWhile_sublist isPySpace).mem h1

/-- Characters of a space-join come from the joined lines or are the
separator space. -/
theorem mem_of_mem_joinSpace (ls : List (List Char)) (c : Char) (h : c ∈ joinSpace ls) :
    c = ' ' ∨ ∃ l ∈ ls, c ∈ l := by
  induction ls with
  | nil => simp [joinSpace] at h
  | cons l ls ih =>
    cases ls with
    | nil =>
      right
      exact ⟨l, List.mem_cons_self _ _, by simpa [joinSpace] using h⟩
    | cons l' ls' =>
      simp only [joinSpace, List.mem_append, List.mem_cons] at h
      rcases h with h | h | h
      · exact Or.inr ⟨l, List.mem_cons_self _ _, h⟩
      · exact Or.inl h
      · rcases ih h with h' | ⟨l2, hl2, hc2⟩
        · exact Or.inl h'
        · exact Or.inr ⟨l2, List.mem_cons_of_mem _ hl2, hc2⟩

/-- If the ABC text contains no barline character, neither does the
extracted music text. -/
theorem musicOf_no_bar (abc : List Char) (h : '|' ∉ abc) : '|' ∉ musicOf abc := by
  intro hmem
  unfold musicOf at hmem
  rcases mem_of_mem_joinSpace _ _ hmem with he | ⟨l, hl, hc⟩
  · exact absurd he (by decide)
  · rw [List.mem_filter] at hl
    rcases List.mem_map.mp hl.1 with ⟨l0, hl0, rfl⟩
    exact h (mem_of_mem_splitOnNl abc l0 hl0 '|' (mem_of_mem_stripChars l0 '|' hc))

/-- A barline-free text tokenizes to a single content token: every
delimiter of the barline alternation contains `|`. -/
theorem tokenizeAux_no_bar : ∀ (l acc : List Char), '|' ∉ l →
    tokenizeAux acc l = [String.mk (acc.reverse ++ l)] := by
  intro l
  induction l with
  | nil => intro acc h; simp [tokenizeAux]
  | cons c r ih =>
    intro acc h
    have hc : c ≠ '|' := by intro e; exact h (by rw [e]; exact List.mem_cons_self _ _)
    have hr : '|' ∉ r := fun hm => h (List.mem_cons_of_mem _ hm)
    have hhd : ∀ r', r = '|' :: r' → False := by
      intro r' e
      exact hr (by rw [e]; exact List.mem_cons_self _ _)
    rw [tokenizeAux.eq_def]
    split
    · rename_i heq; exact absurd (List.cons.injEq .. ▸ heq) (by simp_all)
    · rename_i heq
      injection heq with e1 e2
      exact absurd e2 (fun e => hhd _ e)
    · rename_i heq
      injection heq with e1 e2
      exact absurd e2 (fun e => hhd _ e)
    · rename_i heq
      injection heq with e1 e2
      exact absurd e1 hc
    · rename_i heq
      injection heq with e1 e2
      exact absurd e1 hc
    · rename_i heq
      injection heq with e1 e2
      exact absurd e1 hc
    · rename_i c' r' heq
      injection heq with e1 e2
      subst e1; subst e2
      rw [ih (c :: acc) hr]
      simp
    · rename_i heq; exact absurd heq (by simp)

/-- Stripping a token only removes characters. -/
theorem mem_pyStrip (tok : String) (c : Char) (h : c ∈ (pyStrip tok).data) : c ∈ tok.data := by
  unfold pyStrip at h
  exact mem_of_mem_stripChars _ _ h

/-- A single barline-free token closes no section: it is either empty or
musical content, never a barline-family token. -/
theorem repeatsWalk_single_content (tok : String) (cur start : Int) (cnt : Nat) (je : Bool)
    (h : '|' ∉ (pyStrip tok).data) :
    repeatsWalk cur start cnt je [tok] = [] := by
  have hne : ∀ s : String, '|' ∈ s.data → pyStrip tok ≠ s := by
    intro s hs e
    exact h (e ▸ hs)
  by_cases h0 : pyStrip tok = ""
  · simp [repeatsWalk, h0]
  · have h1 : pyStrip tok ≠ "|:" := hne _ (by decide)
    have h2 : pyStrip tok ≠ ":|" := hne _ (by decide)
    have h3 : pyStrip tok ≠ ":||:" := hne _ (by decide)
    have h4 : pyStrip tok ≠ ":|:" := hne _ (by decide)
    have h5 : pyStrip tok ≠ "|" := hne _ (by decide)
    have h6 : pyStrip tok ≠ "||" := hne _ (by decide)
    simp [repeatsWalk, h0, h1, h2, h3, h4, h5, h6]

/-- The repeat strategy yields no sections on barline-free music. -/
theorem sections_from_repeats_no_bar (music : List Char) (h : '|' ∉ music) :
    sections_from_repeats music = [] := by
  unfold sections_from_repeats tokenizeMusic
  rw [tokenizeAux_no_bar music [] h]
  apply repeatsWalk_single_content
  intro hm
  exact h (by simpa using mem_pyStrip ⟨music⟩ '|' hm)

/-- C7: on the empty string, and more generally on any text with no
barline character and fewer than two `[P:A]`/`[P:B]` part markers,
`detect_sections` lands in the half-split fallback with a barline count
of 0 forced up to the minimum of 8, producing exactly the two
boundaries A (measures 1–4) and B (measures 5–8), each with
repeat = 1. -/
theorem detect_sections_no_bar_half_split (abc : String)
    (hbar : '|' ∉ abc.data) (hparts : (findPartMatches abc.data).length < 2) :
    detect_sections abc =
      [ { name := "A", start_measure := 1, end_measure := 4,
          repeat_count := 1, next_has_pickup := false },
        { name := "B", start_measure := 5, end_measure := 8,
          repeat_count := 1, next_has_pickup := false } ] := by
  have hmus : '|' ∉ musicOf abc.data := musicOf_no_bar _ hbar
  have hrep := sections_from_repeats_no_bar _ hmus
  have hcount : (musicOf abc.data).countP (fun c => c = '|') = 0 := by
    rw [List.countP_eq_zero]
    intro a ha
    simp only [decide_eq_true_eq]
    intro e
    exact hmus (e ▸ ha)
  unfold detect_sections
  have hp : ¬ 2 ≤ (findPartMatches abc.data).length := by omega
  simp only [hp, if_false, hrep, if_pos]
  simp [sections_from_half_split, hcount]

/-- Witness for C7: the empty string yields the half-split fallback
boundaries A (1–4) and B (5–8). -/
theorem detect_sections_empty_witness :
    detect_sections "" =
      [ { name := "A", start_measure := 1, end_measure := 4,
          repeat_count := 1, next_has_pickup := false },
        { name := "B", start_measure := 5, end_measure := 8,
          repeat_count := 1, next_has_pickup := false } ] :=
  detect_sections_no_bar_half_split "" (by decide) (by decide)

/-- `detect_sections` never returns an empty list: the part-marker path
emits one boundary per match (≥ 2 by its guard), the repeat path is only
taken when non-empty, and the half-split fallback always emits two. -/
theorem detect_sections_nonempty (abc : String) : detect_sections abc ≠ [] := by
  unfold detect_sections
  by_cases hp : 2 ≤ (findPartMatches abc.data).length
  · simp only [hp, if_true]
    intro e
    have hl := partMarkersAux_length (findPartMatches abc.data) 1
    unfold sections_from_part_markers at e
    rw [e] at hl
    simp at hl
    omega
  · simp only [hp, if_false]
    by_cases hr : sections_from_repeats (musicOf abc.data) = []
    · simp [hr, sections_from_half_split]
    · simp [hr]

/-- C10: for every input string, `detect_sections` yields a non-empty
boundary list, so inside `parse_abc` the assigner's empty-boundaries
branch (which would build the single "Full" section) is never taken:
the assignment always runs the boundary-driven body.  The per-path
counts backing this: the part-marker strategy emits one boundary per
match (≥ 2 under its guard), the repeat strategy's result is returned
only when non-empty, and the half-split fallback emits exactly 2. -/
theorem detect_sections_nonempty_no_full (abc : String)
    (all_notes : List NoteEvent) (ts : String)
    (letters : List Char) (music : List Char) :
    detect_sections abc ≠ [] ∧
    assign_notes_to_sections all_notes (detect_sections abc) ts
      = assignWithBoundaries all_notes (detect_sections abc) ts ∧
    (sections_from_part_markers letters).length = letters.length ∧
    (sections_from_half_split music).length = 2 := by
  refine ⟨detect_sections_nonempty abc, ?_, partMarkersAux_length letters 1, rfl⟩
  unfold assign_notes_to_sections
  rw [if_neg (detect_sections_nonempty abc)]

/-- Folding `min` over start times yields a lower bound. -/
theorem foldl_min_start_le (rest : List NoteEvent) :
    ∀ a : ℚ, (rest.foldl (fun x m => min x m.start_time) a) ≤ a ∧
      ∀ n ∈ rest, (rest.foldl (fun x m => min x m.start_time) a) ≤ n.start_time := by
  induction rest with
  | nil => intro a; exact ⟨le_refl _, by simp⟩
  | cons m t ih =>
    intro a
    have h := ih (min a m.start_time)
    refine ⟨le_trans h.1 (min_le_left _ _), ?_⟩
    intro n hn
    rcases List.mem_cons.mp hn with rfl | hn
    · exact le_trans h.1 (min_le_right _ _)
    · exact h.2 n hn

/-- The section minimum start time is a lower bound for its notes. -/
theorem minStartE_le (ns : List NoteEvent) :
    ∀ n ∈ ns, minStartE ns ≤ n.start_time := by
  cases ns with
  | nil => simp
  | cons n0 rest =>
    intro n hn
    rcases List.mem_cons.mp hn with rfl | hn
    · exact (foldl_min_start_le rest n.start_time).1
    · exact (foldl_min_start_le rest n0.start_time).2 n hn

/-- Folding `min` commutes with subtracting a constant offset. -/
theorem foldl_min_start_map_sub (m : ℚ) (rest : List NoteEvent) :
    ∀ a : ℚ, ((rest.map (fun n => PNote.mk n.pitch n.duration (n.start_time - m))).foldl
        (fun x y => min x y.start_time) (a - m))
      = (rest.foldl (fun x n => min x n.start_time) a) - m := by
  induction rest with
  | nil => intro a; rfl
  | cons n t ih =>
    intro a
    simp only [List.map_cons, List.foldl_cons]
    rw [min_sub_sub_right a n.start_time m]
    exact ih (min a n.start_time)

/-- After subtracting the section minimum, the minimum start time is 0. -/
theorem minStartP_normalized (ns : List NoteEvent) (hne : ns ≠ []) :
    minStartP (ns.map (fun n => PNote.mk n.pitch n.duration (n.start_time - minStartE ns))) = 0 := by
  cases ns with
  | nil => exact absurd rfl hne
  | cons n0 rest =>
    simp only [minStartP, List.map_cons, minStartE]
    rw [foldl_min_start_map_sub]
    simp [minStartE]

/-- The normalized note list of a section (empty, or the filtered notes
shifted by their minimum) has minimum start time 0 and only non-negative
start times whenever it is non-empty. -/
theorem normNotes_min_zero (flt : List NoteEvent) (out : List PNote)
    (hout : out = (if flt = [] then [] else
      flt.map (fun n => PNote.mk n.pitch n.duration (n.start_time - minStartE flt))))
    (hne : out ≠ []) :
    minStartP out = 0 ∧ ∀ n ∈ out, 0 ≤ n.start_time := by
  by_cases hfe : flt = []
  · rw [hout, if_pos hfe] at hne
    exact absurd rfl hne
  · rw [hout, if_neg hfe]
    refine ⟨minStartP_normalized _ hfe, ?_⟩
    intro n hn
    rcases List.mem_map.mp hn with ⟨x, hx, rfl⟩
    have := minStartE_le _ x hx
    simp only
    linarith

/-- A built section with at least one note has normalized timing. -/
theorem buildSection_notes_min_zero (sorted : List NoteEvent) (info : SectionBoundary)
    (r : ℚ × ℚ) (hne : (buildSection sorted info r).notes ≠ []) :
    minStartP (buildSection sorted info r).notes = 0 ∧
    ∀ n ∈ (buildSection sorted info r).notes, 0 ≤ n.start_time :=
  normNotes_min_zero
    (sorted.filter (fun n => r.1 ≤ n.start_time ∧ n.start_time < r.2))
    (buildSection sorted info r).notes rfl hne

/-- C6 amended: every section produced by the assigner *from a non-empty
boundary list* that contains at least one note has its minimum
start_time normalized to 0 (each note's start time is the original minus
the section minimum, hence non-negative).  The empty-boundary "Full"
fallback passes absolute start times through unnormalized (see the
counterexample). -/
theorem assign_min_start_zero (all_notes : List NoteEvent)
    (section_info : List SectionBoundary) (ts : String) (hinfo : section_info ≠ []) :
    ∀ s ∈ assign_notes_to_sections all_notes section_info ts,
      s.notes ≠ [] → minStartP s.notes = 0 ∧ ∀ n ∈ s.notes, 0 ≤ n.start_time := by
  intro s hs hne
  unfold assign_notes_to_sections at hs
  rw [if_neg hinfo] at hs
  unfold assignWithBoundaries at hs
  by_cases hsort : sortNotes all_notes = []
  · rw [if_pos hsort] at hs
    rcases List.mem_map.mp hs with ⟨info, _, rfl⟩
    simp at hne
  · rw [if_neg hsort] at hs
    rcases List.mem_map.mp hs with ⟨p, hp, rfl⟩
    exact buildSection_notes_min_zero _ _ _ hne

/-- Counterexample to C6 as stated over *every* assigner output: with an
empty boundary list the "Full" fallback section keeps the absolute
start time 5, so its minimum start time is 5, not 0 — no normalization
is applied on that path. -/
theorem full_fallback_unnormalized_counterexample :
    assign_notes_to_sections [⟨"C4", 1, 5, 1⟩] [] "4/4" =
      [⟨"Full", 1, 1, [⟨"C4", 1, 5⟩], 1, none⟩] ∧
    minStartP [⟨"C4", 1, 5⟩] = 5 := by
  refine ⟨by decide, by decide⟩

/-- Witness for C6 amended: one note at absolute start 0 assigned under
one boundary yields a section whose normalized minimum start time is
0. -/
theorem assign_min_start_zero_witness :
    minStartP [PNote.mk "C4" 1 0] = 0 := by
  have h := assign_min_start_zero [⟨"C4", 1, 0, 1⟩] [⟨"A", 1, 4, 1, false⟩] "4/4" (by decide)
  have e : assign_notes_to_sections [⟨"C4", 1, 0, 1⟩] [⟨"A", 1, 4, 1, false⟩] "4/4" =
      [⟨"A", 1, 4, [PNote.mk "C4" 1 0], 1, none⟩] := by
    norm_num [assign_notes_to_sections, assignWithBoundaries, sortNotes,
      List.insertionSort, List.orderedInsert, sectionRangesOf, beatRangesAux,
      totalBeats, buildSection, minStartE]
  have hm : (⟨"A", 1, 4, [PNote.mk "C4" 1 0], 1, none⟩ : PSection) ∈
      assign_notes_to_sections [⟨"C4", 1, 0, 1⟩] [⟨"A", 1, 4, 1, false⟩] "4/4" := by
    rw [e]
    exact List.mem_cons_self _ _
  exact (h _ hm (by decide)).1

/-- One beat range is produced per section boundary. -/
theorem beatRangesAux_length (msb : Int → Option ℚ) (ts : String) (total : ℚ) (num : Nat) :
    ∀ (info : List SectionBoundary) (prev : ℚ) (i : Nat),
      (beatRangesAux msb ts total num prev i info).length = info.length := by
  intro info
  induction info with
  | nil => intro prev i; rfl
  | cons cur rest ih =>
    intro prev i
    cases rest with
    | nil => rfl
    | cons next rest' =>
      simp only [beatRangesAux, List.length_cons]
      rw [ih _ (i + 1)]
      simp

/-- The computed beat ranges are chained by construction: the first
starts at the running offset, each subsequent range starts where the
previous ended, and the last ends at `total`. -/
theorem beatRangesAux_chain (msb : Int → Option ℚ) (ts : String) (total : ℚ) (num : Nat) :
    ∀ (info : List SectionBoundary) (prev : ℚ) (i : Nat), info ≠ [] →
      rangeChainP prev total (beatRangesAux msb ts total num prev i info) := by
  intro info
  induction info with
  | nil => intro prev i h; exact absurd rfl h
  | cons cur rest ih =>
    intro prev i _
    cases rest with
    | nil => exact ⟨rfl, rfl⟩
    | cons next rest' =>
      exact ⟨rfl, ih _ (i + 1) (by simp)⟩

/-- In a chained list of ordered ranges starting at `b`, every range
starts at or after `b`. -/
theorem rangeChainP_lower (rs : List (ℚ × ℚ)) :
    ∀ (b T : ℚ), rangeChainP b T rs → (∀ r ∈ rs, r.1 ≤ r.2) →
      ∀ r ∈ rs, b ≤ r.1 := by
  induction rs with
  | nil => intro b T _ _ r hr; simp at hr
  | cons c rest ih =>
    intro b T hchain hord r hr
    rcases List.mem_cons.mp hr with rfl | hr
    · rw [hchain.1]
    · have hc := hord c (List.mem_cons_self _ _)
      have := ih c.2 T hchain.2 (fun r' hr' => hord r' (List.mem_cons_of_mem _ hr')) r hr
      have hb : b = c.1 := hchain.1.symm
      rw [hb]
      exact le_trans hc this

/-- A point of `[s, T)` lies in exactly one range of a chained list of
ordered ranges spanning `[s, T)`. -/
theorem rangeChainP_count_one (rs : List (ℚ × ℚ)) :
    ∀ (s T x : ℚ), rangeChainP s T rs → (∀ r ∈ rs, r.1 ≤ r.2) →
      s ≤ x → x < T →
      rs.countP (fun r => decide (r.1 ≤ x ∧ x < r.2)) = 1 := by
  induction rs with
  | nil =>
    intro s T x hchain _ hsx hxT
    exact absurd (lt_of_le_of_lt hsx hxT)
      (by simp [rangeChainP] at hchain; rw [hchain]; exact lt_irrefl T)
  | cons c rest ih =>
    intro s T x hchain hord hsx hxT
    have hc1 : c.1 = s := hchain.1
    by_cases hx : x < c.2
    · rw [List.countP_cons]
      have hpred : (decide (c.1 ≤ x ∧ x < c.2)) = true := by
        simp [hc1, hsx, hx]
      have hrest : rest.countP (fun r => decide (r.1 ≤ x ∧ x < r.2)) = 0 := by
        rw [List.countP_eq_zero]
        intro r hr
        have := rangeChainP_lower rest c.2 T hchain.2
          (fun r' hr' => hord r' (List.mem_cons_of_mem _ hr')) r hr
        simp only [decide_eq_true_eq, not_and]
        intro hr1
        exact absurd (lt_of_lt_of_le hx this) (not_lt.mpr hr1)
      rw [hpred, hrest]
      simp
    · rw [List.countP_cons]
      have hpred : (decide (c.1 ≤ x ∧ x < c.2)) = false := by
        simp only [decide_eq_false_iff_not, not_and]
        intro _
        exact hx
      have := ih c.2 T x hchain.2
        (fun r' hr' => hord r' (List.mem_cons_of_mem _ hr')) (not_lt.mp hx) hxT
      rw [hpred, this]
      simp

/-- Summation distributes over pointwise addition of two maps. -/
theorem sum_map_addN {α : Type} (l : List α) (f g : α → Nat) :
    (l.map (fun a => f a + g a)).sum = (l.map f).sum + (l.map g).sum := by
  induction l with
  | nil => rfl
  | cons a t ih => simp [ih]; omega

/-- The sum of indicator values equals the count of satisfied
predicates. -/
theorem sum_map_ite_countP {α : Type} (l : List α) (p : α → Bool) :
    (l.map (fun a => if p a then 1 else 0)).sum = l.countP p := by
  induction l with
  | nil => rfl
  | cons a t ih =>
    rw [List.map_cons, List.sum_cons, List.countP_cons, ih]
    by_cases h : p a = true
    · simp [h]
      omega
    · simp [h]

/-- Counting partition: over a chained list of ordered ranges covering
`[s, T)`, the per-range half-open membership counts of a note list whose
start times all lie in `[s, T)` sum to the note count. -/
theorem partition_count (l : List NoteEvent) :
    ∀ (rs : List (ℚ × ℚ)) (s T : ℚ), rangeChainP s T rs → (∀ r ∈ rs, r.1 ≤ r.2) →
      (∀ x ∈ l, s ≤ x.start_time ∧ x.start_time < T) →
      (rs.map (fun r => l.countP (fun n => decide (r.1 ≤ n.start_time ∧ n.start_time < r.2)))).sum
        = l.length := by
  induction l with
  | nil =>
    intro rs s T _ _ _
    simp
  | cons x t ih =>
    intro rs s T hchain hord hb
    have hxb := hb x (List.mem_cons_self _ _)
    have hcnt := rangeChainP_count_one rs s T x.start_time hchain hord hxb.1 hxb.2
    have e1 : (rs.map (fun r =>
        (x :: t).countP (fun n => decide (r.1 ≤ n.start_time ∧ n.start_time < r.2)))).sum
        = (rs.map (fun r =>
            t.countP (fun n => decide (r.1 ≤ n.start_time ∧ n.start_time < r.2))
            + if (decide (r.1 ≤ x.start_time ∧ x.start_time < r.2)) then 1 else 0)).sum := by
      congr 1
      apply List.map_congr_left
      intro r _
      rw [List.countP_cons]
    rw [e1, sum_map_addN, sum_map_ite_countP,
      ih rs s T hchain hord (fun y hy => hb y (List.mem_cons_of_mem _ hy)), hcnt]
    simp

/-- Folding `max` over note end times yields an upper bound. -/
theorem foldl_max_start_le (rest : List NoteEvent) :
    ∀ a : ℚ, a ≤ (rest.foldl (fun x m => max x (m.start_time + m.duration)) a) ∧
      ∀ n ∈ rest, n.start_time + n.duration ≤
        (rest.foldl (fun x m => max x (m.start_time + m.duration)) a) := by
  induction rest with
  | nil => intro a; exact ⟨le_refl _, by simp⟩
  | cons m t ih =>
    intro a
    have h := ih (max a (m.start_time + m.duration))
    refine ⟨le_trans (le_max_left _ _) h.1, ?_⟩
    intro n hn
    rcases List.mem_cons.mp hn with rfl | hn
    · exact le_trans (le_max_right _ _) h.1
    · exact h.2 n hn

/-- Every note ends at or before the computed total beat count. -/
theorem totalBeats_ge (ns : List NoteEvent) :
    ∀ n ∈ ns, n.start_time + n.duration ≤ totalBeats ns := by
  cases ns with
  | nil => simp
  | cons n0 rest =>
    intro n hn
    rcases List.mem_cons.mp hn with rfl | hn
    · exact (foldl_max_start_le rest (n.start_time + n.duration)).1
    · exact (foldl_max_start_le rest (n0.start_time + n0.duration)).2 n hn

/-- Summing a function of the second components over a zip of
equal-length lists equals summing over the second list. -/
theorem zip_map_snd_sum {α β : Type} :
    ∀ (a : List α) (b : List β) (f : β → Nat), a.length = b.length →
      ((a.zip b).map (fun p => f p.2)).sum = (b.map f).sum := by
  intro a
  induction a with
  | nil =>
    intro b f h
    cases b with
    | nil => rfl
    | cons y t => simp at h
  | cons x t ih =>
    intro b f h
    cases b with
    | nil => simp at h
    | cons y u =>
      simp only [List.zip_cons_cons, List.map_cons, List.sum_cons]
      rw [ih u f (by simpa using h)]

/-- The note count of a built section equals the count of sorted notes
falling in its half-open beat range (normalization does not change the
count). -/
theorem buildSection_notes_length (sorted : List NoteEvent) (info : SectionBoundary)
    (r : ℚ × ℚ) :
    (buildSection sorted info r).notes.length
      = sorted.countP (fun n => decide (r.1 ≤ n.start_time ∧ n.start_time < r.2)) := by
  unfold buildSection
  simp only
  by_cases hfe : sorted.filter (fun n => decide (r.1 ≤ n.start_time ∧ n.start_time < r.2)) = []
  · rw [if_pos hfe]
    rw [List.countP_eq_length_filter, hfe]
    rfl
  · rw [if_neg hfe]
    rw [List.length_map, List.countP_eq_length_filter]

/-- C1 amended: with a non-empty boundary list, conservation of the note
count holds provided every note event has a non-negative start time and
a strictly positive duration, and every computed section beat range is
non-decreasing (start ≤ end).  Under those hypotheses the chained
half-open ranges partition `[0, total_beats)` and every note falls in
exactly one section.  Without the range-monotonicity hypothesis the
probed measure lookups can produce a later range that ends before an
earlier one, and notes in the overlap are assigned to several sections
(see the counterexample). -/
theorem assign_conservation_amended (all_notes : List NoteEvent)
    (section_info : List SectionBoundary) (ts : String)
    (hinfo : section_info ≠ [])
    (hpos : ∀ n ∈ all_notes, 0 ≤ n.start_time ∧ 0 < n.duration)
    (hmono : ∀ r ∈ sectionRangesOf (sortNotes all_notes) section_info ts, r.1 ≤ r.2) :
    ((assign_notes_to_sections all_notes section_info ts).map (fun s => s.notes.length)).sum
      = all_notes.length := by
  have hperm : (sortNotes all_notes).Perm all_notes :=
    List.perm_insertionSort _ all_notes
  unfold assign_notes_to_sections
  rw [if_neg hinfo]
  unfold assignWithBoundaries
  by_cases hsort : sortNotes all_notes = []
  · rw [if_pos hsort]
    have hall : all_notes = [] := by
      have hl := hperm.length_eq
      rw [hsort] at hl
      exact List.length_eq_zero.mp hl.symm
    rw [hall, List.map_map]
    simp [Function.comp, List.sum_eq_zero_iff]
  · rw [if_neg hsort]
    rw [List.map_map]
    have hlen : section_info.length
        = (sectionRangesOf (sortNotes all_notes) section_info ts).length := by
      unfold sectionRangesOf
      rw [beatRangesAux_length]
    have e2 : List.map
        ((fun s => s.notes.length) ∘ (fun p => buildSection (sortNotes all_notes) p.1 p.2))
        (section_info.zip (sectionRangesOf (sortNotes all_notes) section_info ts))
        = List.map (fun p => (sortNotes all_notes).countP
            (fun n => decide (p.2.1 ≤ n.start_time ∧ n.start_time < p.2.2)))
          (section_info.zip (sectionRangesOf (sortNotes all_notes) section_info ts)) := by
      apply List.map_congr_left
      intro p _
      exact buildSection_notes_length _ p.1 p.2
    rw [e2, zip_map_snd_sum section_info _
      (fun r => (sortNotes all_notes).countP
        (fun n => decide (r.1 ≤ n.start_time ∧ n.start_time < r.2))) hlen]
    have hchain : rangeChainP 0 (totalBeats (sortNotes all_notes))
        (sectionRangesOf (sortNotes all_notes) section_info ts) := by
      unfold sectionRangesOf
      exact beatRangesAux_chain _ _ _ _ section_info 0 0 hinfo
    have hb : ∀ x ∈ sortNotes all_notes,
        0 ≤ x.start_time ∧ x.start_time < totalBeats (sortNotes all_notes) := by
      intro x hx
      have hx' : x ∈ all_notes := hperm.mem_iff.mp hx
      refine ⟨(hpos x hx').1, ?_⟩
      have h2 := (hpos x hx').2
      have h3 := totalBeats_ge (sortNotes all_notes) x hx
      linarith
    rw [partition_count (sortNotes all_notes) _ 0 (totalBeats (sortNotes all_notes))
      hchain hmono hb]
    exact hperm.length_eq

/-- Counterexample to C1 as stated for *all* inputs: three valid note
events (non-negative starts, positive durations) and three contiguous
boundaries for which the probed measure lookups produce the beat ranges
[0,10), [10,3), [3,11).  The middle range is empty and the outer two
overlap on [3,10), so two of the three notes are assigned to both
sections A and C: the output holds 5 notes (2 + 0 + 3) from 3 inputs —
notes are duplicated and the total is not conserved. -/
theorem assign_conservation_counterexample :
    ((assign_notes_to_sections
        [⟨"X", 1, 5, 1⟩, ⟨"Y", 1, 10, 2⟩, ⟨"Z", 1, 3, 4⟩]
        [⟨"A", 1, 2, 1, false⟩, ⟨"B", 3, 4, 1, false⟩, ⟨"C", 5, 6, 1, false⟩]
        "4/4").map (fun s => s.notes.length)).sum = 5 ∧
    ([⟨"X", 1, 5, 1⟩, ⟨"Y", 1, 10, 2⟩, ⟨"Z", 1, 3, 4⟩] : List NoteEvent).length = 3 := by
  constructor
  · norm_num [assign_notes_to_sections, assignWithBoundaries, sortNotes,
      List.insertionSort, List.orderedInsert, sectionRangesOf, beatRangesAux,
      endBeatFor, hasPickupTune, measureStartBeats, msbStep, firstFoundBeat,
      totalBeats, buildSection, minStartE]
    simp
  · rfl

/-- Witness for C1 amended: a single note under a single boundary is
conserved (range `[0,1)`, one note in, one note out). -/
theorem assign_conservation_witness :
    ((assign_notes_to_sections [⟨"C4", 1, 0, 1⟩] [⟨"A", 1, 4, 1, false⟩] "4/4").map
      (fun s => s.notes.length)).sum = 1 := by
  have h := assign_conservation_amended [⟨"C4", 1, 0, 1⟩] [⟨"A", 1, 4, 1, false⟩] "4/4"
    (by decide) (by norm_num)
    (by
      norm_num [sectionRangesOf, beatRangesAux, sortNotes, List.insertionSort,
        List.orderedInsert, totalBeats])
  simpa using h
